import Mathlib

/-!
Shallow embedding of the world-render orchestration engine of
`world.py` (Minecraft-Overviewer): the coordinate projection
`_convert_coords`, the chunk discovery `_get_chunklist`, the spawn
resolver `findTrueSpawn`, and the dispatcher
`_render_chunks_async` in its inline (1 process) and pooled
(N processes) modes, together with the POI event handling.

External collaborators that live outside `world.py` (the `chunk`
module's `find_oldimage`, `check_cache`, `render_and_save`, and the
decoded block array supplied by the `nbt` collaborator) are taken as
parameters, exactly as the spec treats them.  Python `None`/falsy
image paths are modelled by `Option String` together with the
`truthy` predicate (Python treats both `None` and the empty string
as false).  A `sys.exit(1)` is modelled as `Option.none`.
-/

namespace Overviewer

/-- A chunk coordinate `(chunkX, chunkY)`, signed. -/
abbrev ChunkXY := Int × Int

/-- A POI record as built by `world.py`:
`dict(x=.., y=.., z=.., msg=.., type=.., chunk=(..,..))`. -/
structure POIEntry where
  x : Int
  y : Int
  z : Int
  msg : String
  type : String
  chunk : Int × Int
  deriving DecidableEq, Repr

/-- A message on the worker-to-orchestrator queue: `("newpoi", entry)`
or `("removePOI", chunkKey)` (world.py lines 355-358 / 390-393). -/
inductive QMsg where
  | newpoi (e : POIEntry)
  | removePOI (k : Int × Int)
  deriving DecidableEq, Repr

/-- Python truthiness of an optional image path: `None` and the empty
string are falsy, any other string is truthy (used by `if result:`
at world.py line 350). -/
def truthy : Option String → Bool
  | none => false
  | some s => s ≠ ""

/-! ## CoordinateMapper: `_convert_coords` (world.py lines 43-69) -/

/-- The diagonal projection used inside `_convert_coords`:
`col = c[0] + c[1]`, `row = c[1] - c[0]` (world.py lines 61, 64). -/
def project (chunkX chunkY : Int) : Int × Int :=
  (chunkX + chunkY, chunkY - chunkX)

/-- One iteration of the `for c in chunks` loop of `_convert_coords`
(world.py lines 60-67): update the four running bounds and append
`(col, row, (c[0], c[1]))` to the translated list. -/
def convertStep (acc : Int × Int × Int × Int × List (Int × Int × ChunkXY))
    (c : Int × Int × String) : Int × Int × Int × Int × List (Int × Int × ChunkXY) :=
  let (mincol, maxcol, minrow, maxrow, translated) := acc
  let col := (project c.1 c.2.1).1
  let row := (project c.1 c.2.1).2
  (min mincol col, max maxcol col, min minrow row, max maxrow row,
    translated ++ [(col, row, (c.1, c.2.1))])

/-- `_convert_coords(chunks)` (world.py lines 43-69).  Takes the list of
`(chunkx, chunky, chunkfile)` and returns
`(mincol, maxcol, minrow, maxrow, chunks_translated)`.  The seed for all
four accumulators is taken from `chunks[0]` (lines 57-59), so the empty
list raises `IndexError`, modelled here as `none`. -/
def _convert_coords (chunks : List (Int × Int × String)) :
    Option (Int × Int × Int × Int × List (Int × Int × ChunkXY)) :=
  match chunks with
  | [] => none
  | item :: _ =>
    some (chunks.foldl convertStep
      (item.1 + item.2.1, item.1 + item.2.1,
       item.2.1 - item.1, item.2.1 - item.1, []))

/-! ## RegionScanner: `_get_chunklist` (world.py lines 280-310) -/

/-- The expansion of one region `(regionX, regionY, regionfile)` into its
1024 chunk slots: `itertools.product(range(rx*32, rx*32+32),
range(ry*32, ry*32+32))`, each tagged with the region file
(world.py lines 296-301).  `itertools.product` iterates its first range
in the outer loop. -/
def expandRegion (region : Int × Int × String) : List (Int × Int × String) :=
  (List.range 32).flatMap (fun i : Nat =>
    (List.range 32).map (fun j : Nat =>
      (region.1 * 32 + (i : Int), region.2.1 * 32 + (j : Int), region.2.2)))

/-- `_get_chunklist` given the discovered regions (world.py lines
292-310): concatenate every region's 1024 chunk slots; if the result is
empty, `sys.exit(1)` (modelled as `none`), otherwise return the list. -/
def _get_chunklist (regions : List (Int × Int × String)) :
    Option (List (Int × Int × String)) :=
  let all_chunks := regions.flatMap expandRegion
  if all_chunks.isEmpty then none else some all_chunks

/-! ## SpawnResolver: `findTrueSpawn` (world.py lines 206-239) -/

/-- The `while blockArray[inChunkX, inChunkZ, spawnY] != 0` loop of
`findTrueSpawn` (world.py lines 233-236): if the block at the current
height is air (id 0) stop there; otherwise increment the height, and
stop at the ceiling 128 if reached.  The loop runs at most `128 - y`
times (each pass either exits or moves `y` one step closer to the
break at 128), so that fuel makes the recursion total without changing
its in-domain behaviour. -/
def spawnLoop (blk : Int → Int → Int → Nat) (ix iz : Int) : Nat → Int → Int
  | 0, y => y
  | fuel + 1, y =>
    if blk ix iz y = 0 then y
    else if y + 1 = 128 then 128
    else spawnLoop blk ix iz fuel (y + 1)

/-- `findTrueSpawn` (world.py lines 206-239), with the spawn metadata
`(spawnX, spawnY, spawnZ)` read from `level.dat` and the decoded
16×16×128 block column `blk` of the owning chunk taken as inputs (they
come from the excluded `nbt` collaborator).  Python 2 `/` on ints is
floor division, which for the positive divisor 16 agrees with `Int`
division.  Returns the single POI record appended to `self.POI`. -/
def findTrueSpawn (blk : Int → Int → Int → Nat)
    (spawnX spawnY spawnZ : Int) : POIEntry :=
  let chunkX := spawnX / 16
  let chunkY := spawnZ / 16
  let inChunkX := spawnX - chunkX * 16
  let inChunkZ := spawnZ - chunkY * 16
  let resolvedY := spawnLoop blk inChunkX inChunkZ (128 - spawnY).toNat spawnY
  { x := spawnX, y := resolvedY, z := spawnZ,
    msg := "Spawn", type := "spawn", chunk := (inChunkX, inChunkZ) }

/-! ## EventAggregator (world.py lines 353-360 and 388-396) -/

/-- The orchestrator's handling of one queue message, identical in the
inline and pooled branches: `"newpoi"` appends to `self.POI`,
`"removePOI"` filters `self.persistentData['POI']`, keeping entries
whose `chunk` differs from the key.  The state is the pair
(live POI sequence, persistent POI sequence). -/
def applyMsg (st : List POIEntry × List POIEntry) (m : QMsg) :
    List POIEntry × List POIEntry :=
  match m with
  | .newpoi e => (st.1 ++ [e], st.2)
  | .removePOI k => (st.1, st.2.filter (fun x => x.chunk ≠ k))

/-! ## Dispatcher: `_render_chunks_async` (world.py lines 312-404) -/

/-- The external collaborators of the dispatcher, all from the excluded
`chunk` module: `find_oldimage` yields the prior image path for a chunk
(the `oldimg[1]` component; `None` when there is none), `check_cache`
decides cache validity from the chunk and that prior image,
`render_and_save` is the deterministic render job's return value, and
`render_msgs` the (finite) list of messages the job pushes onto the
queue while it runs. -/
structure RenderEnv where
  find_oldimage : ChunkXY → Option String
  check_cache : ChunkXY → Option String → Bool
  render_and_save : ChunkXY → Option String
  render_msgs : ChunkXY → List QMsg

/-- Orchestrator state threaded through `_render_chunks_async`:
the `results` dict (as an insertion-ordered association list), the live
`self.POI` list, the `self.persistentData['POI']` list, the manager
queue contents, and — as instrumentation for the cache-hit guarantee —
the list of chunks for which `render_and_save` was actually invoked. -/
structure DState where
  results : List ((Int × Int) × Option String)
  poi : List POIEntry
  pd : List POIEntry
  queue : List QMsg
  rendered : List ChunkXY
  deriving DecidableEq, Repr

/-- The initial dispatcher state: empty results, empty live POI list
(`self.POI = []` at construction), a given persistent POI list loaded
from `overviewer.dat`, a fresh empty queue, nothing rendered yet. -/
def initState (pd0 : List POIEntry) : DState :=
  ⟨[], [], pd0, [], []⟩

/-- One non-blocking `q.get(block=False)`: pop the front message if any
and apply it to the POI state; on `Queue.Empty` do nothing. -/
def pollOnce (st : DState) : DState :=
  match st.queue with
  | [] => st
  | m :: rest =>
    let p := applyMsg (st.poi, st.pd) m
    { st with queue := rest, poi := p.1, pd := p.2 }

/-- The per-chunk result value, common to both modes (world.py lines
342-348 and 375-381): on a cache hit the prior image path `oldimg[1]`,
otherwise the render job's return value. -/
def chunkResult (env : RenderEnv) (cXY : ChunkXY) : Option String :=
  if env.check_cache cXY (env.find_oldimage cXY) then env.find_oldimage cXY
  else env.render_and_save cXY

/-- Lines 342-348 of the inline loop: look up the old image; on a
cache hit the result is `oldimg[1]` and nothing runs; on a miss invoke
`render_and_save` (recording the invocation in `rendered` and
appending the job's queue messages), whose return value is the
result. -/
def inlineRender (env : RenderEnv) (st : DState) (cXY : ChunkXY) :
    DState × Option String :=
  if env.check_cache cXY (env.find_oldimage cXY) then
    (st, env.find_oldimage cXY)
  else
    ({ st with rendered := st.rendered ++ [cXY],
               queue := st.queue ++ env.render_msgs cXY },
     env.render_and_save cXY)

/-- Lines 350-351: `if result: results[(col, row)] = result`. -/
def inlineStore (st : DState) (key : Int × Int) (result : Option String) :
    DState :=
  if truthy result then { st with results := st.results ++ [(key, result)] }
  else st

/-- One iteration of the inline (`processes == 1`) loop of
`_render_chunks_async` (world.py lines 334-362), at enumeration index
`i` on list element `(col, row, chunkXY)`: render-or-reuse, store a
truthy result, then — only when `i > 0` — poll the queue once
non-blockingly. -/
def inlineStep (env : RenderEnv) (st : DState) (ic : Nat × Int × Int × ChunkXY) :
    DState :=
  let r := inlineRender env st ic.2.2.2
  let st2 := inlineStore r.1 (ic.2.1, ic.2.2.1) r.2
  if ic.1 > 0 then pollOnce st2 else st2

/-- The inline (`processes == 1`) branch of `_render_chunks_async`:
fold `inlineStep` over the enumerated chunk list. -/
def renderInline (env : RenderEnv) (chunks : List (Int × Int × ChunkXY))
    (st0 : DState) : DState :=
  chunks.enum.foldl (inlineStep env) st0

/-- The pooled (`processes == N > 1`) branch's result dict: submission
builds one handle per chunk in order (a `FakeAsyncResult` holding
`oldimg[1]` on a cache hit, an `apply_async` handle otherwise); the
collection loop then stores `result.get()` into the dict for every
handle, with **no** truthiness guard (world.py line 387).  Since the
dict is keyed and handles are collected in submission order, the dict
content is this association list. -/
def pooledResults (env : RenderEnv) (chunks : List (Int × Int × ChunkXY)) :
    List ((Int × Int) × Option String) :=
  chunks.map (fun c => ((c.1, c.2.1), chunkResult env c.2.2))

/-- The chunks for which the pooled branch dispatches a real job to the
worker pool (cache misses; cache hits become `FakeAsyncResult`s and
never reach the pool, world.py lines 376-381). -/
def pooledRendered (env : RenderEnv) (chunks : List (Int × Int × ChunkXY)) :
    List ChunkXY :=
  chunks.filterMap (fun c =>
    if env.check_cache c.2.2 (env.find_oldimage c.2.2) then none else some c.2.2)

/-- The queue handling of the pooled collection loop (world.py lines
386-396): one iteration per submitted handle, each performing a single
non-blocking `q.get(block=False)` and applying the message, exactly as
the inline poll does.  Because worker jobs push messages concurrently,
the messages that have newly arrived before the `i`-th poll are a
parameter (`arrivals`, one batch per collected result, possibly empty);
a batch joins the FIFO queue at the back before the poll takes from the
front.  The total emission of the run is `arrivals.flatten` plus
whatever arrives only after the last poll. -/
def pooledDrain (st : DState) (arrivals : List (List QMsg)) : DState :=
  arrivals.foldl (fun s ms => pollOnce { s with queue := s.queue ++ ms }) st

/-- Dict lookup on the insertion-ordered association list.  All lookups
in the theorems below are made under a no-duplicate-keys hypothesis, so
first-match and Python's last-write-wins semantics agree. -/
def lookupPos (m : List ((Int × Int) × Option String)) (k : Int × Int) :
    Option (Option String) :=
  (m.find? (fun e => decide (e.1 = k))).map (fun e => e.2)

/-- The messages one chunk's processing pushes onto the queue: none on
a cache hit (the job never runs), the job's messages on a miss. -/
def emOf (env : RenderEnv) (c : Int × Int × ChunkXY) : List QMsg :=
  if env.check_cache c.2.2 (env.find_oldimage c.2.2) then []
  else env.render_msgs c.2.2

/-- The messages pushed onto the queue during an inline run, in
emission order: each cache-missing chunk contributes its job's
messages; cache hits never run a job and contribute nothing. -/
def inlineEmitted (env : RenderEnv) (chunks : List (Int × Int × ChunkXY)) :
    List QMsg :=
  chunks.flatMap (emOf env)

/-- The dict entry the inline loop stores for one chunk: present only
when the per-chunk result is truthy (`if result:`), keyed by the
chunk's projected position. -/
def inlineEntry (env : RenderEnv) (c : Int × Int × ChunkXY) :
    Option ((Int × Int) × Option String) :=
  if truthy (chunkResult env c.2.2) then
    some ((c.1, c.2.1), chunkResult env c.2.2)
  else none

/-! ## Helper functions for statements -/

/-- The coordinate pair identifying a region entry. -/
def regionKey (r : Int × Int × String) : Int × Int := (r.1, r.2.1)

/-- The coordinate pair identifying a candidate chunk entry. -/
def chunkKey (c : Int × Int × String) : Int × Int := (c.1, c.2.1)

/-! ## Theorems -/

/-- **C3.** The projection `(col, row) = (chunkX+chunkY, chunkY−chunkX)`
used by `_convert_coords` is injective (hence a bijection onto its
image) and is exactly inverted by `x = (col − row)/2`,
`y = (col + row)/2`; in particular `(3, 5)` maps to `(8, 2)`. -/
theorem C3_project_bijective_inverse :
    Function.Injective (fun p : Int × Int => project p.1 p.2) ∧
    (∀ x y : Int, ((project x y).1 - (project x y).2) / 2 = x ∧
      ((project x y).1 + (project x y).2) / 2 = y) ∧
    project 3 5 = (8, 2) := by
  refine ⟨?_, ?_, rfl⟩
  · intro a b h
    simp only [project, Prod.mk.injEq] at h
    have : a.1 = b.1 ∧ a.2 = b.2 := by omega
    exact Prod.ext this.1 this.2
  · intro x y
    constructor
    · simp only [project]; omega
    · simp only [project]; omega

/-- **C10.** `_convert_coords` seeds its accumulators from `chunks[0]`
(world.py line 57), so on the empty list it fails (`IndexError`,
modelled as `none`) instead of returning a bounding box: non-emptiness
is a precondition. -/
theorem C10_convert_coords_empty_fails :
    _convert_coords [] = none := rfl

/-- Each region expands to exactly 1024 candidate chunks. -/
theorem expandRegion_length (r : Int × Int × String) :
    (expandRegion r).length = 1024 := by
  rw [expandRegion, List.length_flatMap]
  have h : (List.range 32).map
      (List.length ∘ fun i : Nat => (List.range 32).map (fun j : Nat =>
        (r.1 * 32 + (i : Int), r.2.1 * 32 + (j : Int), r.2.2))) =
      (List.range 32).map (fun _ => 32) := by
    simp [Function.comp_def]
  rw [h]
  decide

/-- **C9.** `_get_chunklist` hits its fatal `sys.exit(1)` exactly when
the flattened chunk union is empty, which happens exactly when zero
regions were discovered (every region contributes 1024 > 0 chunks);
otherwise it returns the non-empty candidate list. -/
theorem C9_get_chunklist_fatal_iff (regions : List (Int × Int × String)) :
    (_get_chunklist regions = none ↔ regions = []) ∧
    (regions ≠ [] →
      _get_chunklist regions = some (regions.flatMap expandRegion) ∧
      regions.flatMap expandRegion ≠ []) := by
  have hne : ∀ rs : List (Int × Int × String), rs ≠ [] → rs.flatMap expandRegion ≠ [] := by
    intro rs h
    match rs with
    | [] => exact absurd rfl h
    | r :: rest =>
      have h1024 : (((r :: rest).flatMap expandRegion).length) ≠ 0 := by
        rw [List.flatMap_cons, List.length_append, expandRegion_length]
        omega
      intro hempty
      rw [hempty] at h1024
      exact h1024 rfl
  constructor
  · constructor
    · intro h
      by_contra hne2
      have := hne regions hne2
      rw [_get_chunklist] at h
      simp only [List.isEmpty_iff] at h
      split at h
      · exact this (by assumption)
      · exact Option.some_ne_none _ h
    · intro h; subst h; rfl
  · intro h
    refine ⟨?_, hne regions h⟩
    rw [_get_chunklist]
    simp only [List.isEmpty_iff]
    split
    · exact absurd (by assumption) (hne regions h)
    · rfl

/-- Witness for C9 at a concrete one-region input. -/
theorem C9_witness :
    ([((0 : Int), (0 : Int), "region/r.0.0.mcr")] ≠ ([] : List (Int × Int × String))) ∧
    (_get_chunklist [((0 : Int), (0 : Int), "region/r.0.0.mcr")] =
        some ([((0 : Int), (0 : Int), "region/r.0.0.mcr")].flatMap expandRegion) ∧
      [((0 : Int), (0 : Int), "region/r.0.0.mcr")].flatMap expandRegion ≠ []) :=
  ⟨by decide,
   (C9_get_chunklist_fatal_iff [((0 : Int), (0 : Int), "region/r.0.0.mcr")]).2 (by decide)⟩

/-- The chunk keys of one region's expansion, in flatMap form. -/
theorem expandRegion_map_key (r : Int × Int × String) :
    (expandRegion r).map chunkKey =
      (List.range 32).flatMap (fun i : Nat =>
        (List.range 32).map (fun j : Nat =>
          (r.1 * 32 + (i : Int), r.2.1 * 32 + (j : Int)))) := by
  rw [expandRegion, List.map_flatMap]
  simp [List.map_map, Function.comp_def, chunkKey]

/-- Every chunk key of a region's expansion lies in the region's
32×32 block. -/
theorem mem_expandRegion_key {r : Int × Int × String} {k : Int × Int}
    (h : k ∈ (expandRegion r).map chunkKey) :
    ∃ i j : Nat, i < 32 ∧ j < 32 ∧
      k = (r.1 * 32 + (i : Int), r.2.1 * 32 + (j : Int)) := by
  rw [expandRegion_map_key] at h
  simp only [List.mem_flatMap, List.mem_map, List.mem_range] at h
  obtain ⟨i, hi, j, hj, rfl⟩ := h
  exact ⟨i, j, hi, hj, rfl⟩

/-- Within one region the 1024 chunk coordinates are pairwise
distinct. -/
theorem expandRegion_key_nodup (r : Int × Int × String) :
    ((expandRegion r).map chunkKey).Nodup := by
  rw [expandRegion_map_key, List.nodup_flatMap]
  constructor
  · intro i _
    refine (List.nodup_range 32).map ?_
    intro a b hab
    simp only [Prod.mk.injEq] at hab
    omega
  · refine (List.pairwise_lt_range 32).imp ?_
    intro a b hab x hxa hxb
    simp only [List.mem_map, List.mem_range] at hxa hxb
    obtain ⟨i, hi, rfl⟩ := hxa
    obtain ⟨j, hj, hx⟩ := hxb
    simp only [Prod.mk.injEq] at hx
    omega

/-- Distinct regions own disjoint coordinate blocks, so the flattened
candidate list has pairwise distinct chunk coordinates. -/
theorem allChunks_key_nodup (regions : List (Int × Int × String))
    (hnd : (regions.map regionKey).Nodup) :
    ((regions.flatMap expandRegion).map chunkKey).Nodup := by
  rw [List.map_flatMap, List.nodup_flatMap]
  refine ⟨fun r _ => expandRegion_key_nodup r, ?_⟩
  have hp : regions.Pairwise (fun a b => regionKey a ≠ regionKey b) :=
    List.pairwise_map.mp hnd
  refine hp.imp ?_
  intro a b hab x hxa hxb
  obtain ⟨i, j, hi, hj, rfl⟩ := mem_expandRegion_key hxa
  obtain ⟨i', j', hi', hj', hx⟩ := mem_expandRegion_key hxb
  simp only [Prod.mk.injEq] at hx
  apply hab
  simp only [regionKey, Prod.mk.injEq]
  omega

/-- **C6.** For every discovered set of regions (with pairwise distinct
region coordinates), the candidate chunk list built by
`_get_chunklist` has exactly `1024 × (number of regions)` entries, each
region contributes its full 32×32 cross-product
`(regionX*32+i, regionY*32+j)`, and no chunk coordinate appears
twice. -/
theorem C6_chunklist_size_and_nodup (regions : List (Int × Int × String))
    (hnd : (regions.map regionKey).Nodup) :
    (regions.flatMap expandRegion).length = 1024 * regions.length ∧
    (∀ r ∈ regions, ∀ i j : Int, 0 ≤ i → i < 32 → 0 ≤ j → j < 32 →
      (r.1 * 32 + i, r.2.1 * 32 + j, r.2.2) ∈ regions.flatMap expandRegion) ∧
    ((regions.flatMap expandRegion).map chunkKey).Nodup := by
  refine ⟨?_, ?_, allChunks_key_nodup regions hnd⟩
  · clear hnd
    induction regions with
    | nil => rfl
    | cons r rest ih =>
      rw [List.flatMap_cons, List.length_append, expandRegion_length, ih]
      simp only [List.length_cons]
      ring
  · intro r hr i j hi0 hi hj0 hj
    rw [List.mem_flatMap]
    refine ⟨r, hr, ?_⟩
    rw [expandRegion]
    simp only [List.mem_flatMap, List.mem_map, List.mem_range]
    refine ⟨i.toNat, by omega, j.toNat, by omega, ?_⟩
    have h1 : (i.toNat : Int) = i := by omega
    have h2 : (j.toNat : Int) = j := by omega
    rw [h1, h2]

/-- Witness for C6 at a concrete two-region input. -/
theorem C6_witness :
    (([((0 : Int), (0 : Int), "region/r.0.0.mcr"),
       ((1 : Int), (0 : Int), "region/r.1.0.mcr")].map regionKey).Nodup) ∧
    (([((0 : Int), (0 : Int), "region/r.0.0.mcr"),
       ((1 : Int), (0 : Int), "region/r.1.0.mcr")].flatMap expandRegion).length =
      1024 * [((0 : Int), (0 : Int), "region/r.0.0.mcr"),
              ((1 : Int), (0 : Int), "region/r.1.0.mcr")].length ∧
     (∀ r ∈ [((0 : Int), (0 : Int), "region/r.0.0.mcr"),
             ((1 : Int), (0 : Int), "region/r.1.0.mcr")], ∀ i j : Int,
        0 ≤ i → i < 32 → 0 ≤ j → j < 32 →
        (r.1 * 32 + i, r.2.1 * 32 + j, r.2.2) ∈
          [((0 : Int), (0 : Int), "region/r.0.0.mcr"),
           ((1 : Int), (0 : Int), "region/r.1.0.mcr")].flatMap expandRegion) ∧
     (([((0 : Int), (0 : Int), "region/r.0.0.mcr"),
        ((1 : Int), (0 : Int), "region/r.1.0.mcr")].flatMap expandRegion).map
          chunkKey).Nodup) :=
  ⟨by decide, C6_chunklist_size_and_nodup
    [((0 : Int), (0 : Int), "region/r.0.0.mcr"),
     ((1 : Int), (0 : Int), "region/r.1.0.mcr")] (by decide)⟩

/-- Decomposition of the `_convert_coords` loop: the four bound
accumulators are `min`/`max` folds over the projected columns and
rows, and the translated list is the in-order image of the input. -/
theorem foldl_convertStep (cs : List (Int × Int × String)) :
    ∀ acc : Int × Int × Int × Int × List (Int × Int × ChunkXY),
    cs.foldl convertStep acc =
      ((cs.map (fun c => (project c.1 c.2.1).1)).foldl min acc.1,
       (cs.map (fun c => (project c.1 c.2.1).1)).foldl max acc.2.1,
       (cs.map (fun c => (project c.1 c.2.1).2)).foldl min acc.2.2.1,
       (cs.map (fun c => (project c.1 c.2.1).2)).foldl max acc.2.2.2.1,
       acc.2.2.2.2 ++ cs.map (fun c =>
         ((project c.1 c.2.1).1, (project c.1 c.2.1).2, (c.1, c.2.1)))) := by
  induction cs with
  | nil => intro acc; simp
  | cons c rest ih =>
    intro acc
    rw [List.foldl_cons, ih]
    simp [convertStep]

/-- A `min`-fold is a lower bound of the list, bounded by its seed, and
attained at the seed or at a list element. -/
theorem foldl_min_facts (l : List Int) :
    ∀ x : Int, (∀ y ∈ l, l.foldl min x ≤ y) ∧ l.foldl min x ≤ x ∧
      (l.foldl min x = x ∨ l.foldl min x ∈ l) := by
  induction l with
  | nil => intro x; exact ⟨by simp, le_refl x, Or.inl rfl⟩
  | cons a rest ih =>
    intro x
    rw [List.foldl_cons]
    obtain ⟨h1, h2, h3⟩ := ih (min x a)
    refine ⟨?_, ?_, ?_⟩
    · intro y hy
      rcases List.mem_cons.mp hy with rfl | hy2
      · exact le_trans h2 (min_le_right x y)
      · exact h1 y hy2
    · exact le_trans h2 (min_le_left x a)
    · rcases h3 with he | hm
      · rcases le_total x a with hxa | hax
        · exact Or.inl (by rw [he, min_eq_left hxa])
        · refine Or.inr ?_
          have hfa : rest.foldl min (min x a) = a := by rw [he, min_eq_right hax]
          rw [hfa]
          exact List.mem_cons_self a rest
      · exact Or.inr (List.mem_cons_of_mem a hm)

/-- A `max`-fold is an upper bound of the list, bounded below by its
seed, and attained at the seed or at a list element. -/
theorem foldl_max_facts (l : List Int) :
    ∀ x : Int, (∀ y ∈ l, y ≤ l.foldl max x) ∧ x ≤ l.foldl max x ∧
      (l.foldl max x = x ∨ l.foldl max x ∈ l) := by
  induction l with
  | nil => intro x; exact ⟨by simp, le_refl x, Or.inl rfl⟩
  | cons a rest ih =>
    intro x
    rw [List.foldl_cons]
    obtain ⟨h1, h2, h3⟩ := ih (max x a)
    refine ⟨?_, ?_, ?_⟩
    · intro y hy
      rcases List.mem_cons.mp hy with rfl | hy2
      · exact le_trans (le_max_right x y) h2
      · exact h1 y hy2
    · exact le_trans (le_max_left x a) h2
    · rcases h3 with he | hm
      · rcases le_total a x with hax | hxa
        · exact Or.inl (by rw [he, max_eq_left hax])
        · refine Or.inr ?_
          have hfa : rest.foldl max (max x a) = a := by rw [he, max_eq_right hxa]
          rw [hfa]
          exact List.mem_cons_self a rest
      · exact Or.inr (List.mem_cons_of_mem a hm)

/-- **C7.** On any non-empty input, the single-pass `_convert_coords`
returns the brute-force minimum and maximum of the projected columns
and rows (each bound is below/above every projected element and is
attained by one), and the translated list is the in-order projection
of the input with one entry per input chunk. -/
theorem C7_convert_coords_bounds (chunks : List (Int × Int × String))
    (hne : chunks ≠ []) :
    ∃ mincol maxcol minrow maxrow ts,
      _convert_coords chunks = some (mincol, maxcol, minrow, maxrow, ts) ∧
      ts = chunks.map (fun c =>
        ((project c.1 c.2.1).1, (project c.1 c.2.1).2, (c.1, c.2.1))) ∧
      (∀ c ∈ chunks,
        mincol ≤ (project c.1 c.2.1).1 ∧ (project c.1 c.2.1).1 ≤ maxcol ∧
        minrow ≤ (project c.1 c.2.1).2 ∧ (project c.1 c.2.1).2 ≤ maxrow) ∧
      (∃ c ∈ chunks, (project c.1 c.2.1).1 = mincol) ∧
      (∃ c ∈ chunks, (project c.1 c.2.1).1 = maxcol) ∧
      (∃ c ∈ chunks, (project c.1 c.2.1).2 = minrow) ∧
      (∃ c ∈ chunks, (project c.1 c.2.1).2 = maxrow) := by
  obtain ⟨item, rest, rfl⟩ : ∃ it r, chunks = it :: r := by
    cases chunks with
    | nil => exact absurd rfl hne
    | cons it r => exact ⟨it, r, rfl⟩
  have hc : _convert_coords (item :: rest) =
      some ((item :: rest).foldl convertStep
        (item.1 + item.2.1, item.1 + item.2.1,
         item.2.1 - item.1, item.2.1 - item.1, [])) := rfl
  rw [foldl_convertStep] at hc
  set lcol := (item :: rest).map (fun c => (project c.1 c.2.1).1) with hlcol
  set lrow := (item :: rest).map (fun c => (project c.1 c.2.1).2) with hlrow
  refine ⟨_, _, _, _, _, hc, rfl, ?_, ?_, ?_, ?_, ?_⟩
  · intro c hcmem
    have hcol : (project c.1 c.2.1).1 ∈ lcol := List.mem_map_of_mem _ hcmem
    have hrow : (project c.1 c.2.1).2 ∈ lrow := List.mem_map_of_mem _ hcmem
    exact ⟨(foldl_min_facts lcol _).1 _ hcol, (foldl_max_facts lcol _).1 _ hcol,
      (foldl_min_facts lrow _).1 _ hrow, (foldl_max_facts lrow _).1 _ hrow⟩
  · rcases (foldl_min_facts lcol (item.1 + item.2.1)).2.2 with he | hm
    · exact ⟨item, List.mem_cons_self _ _, he.symm⟩
    · obtain ⟨c, hcm, hcv⟩ := List.mem_map.mp hm
      exact ⟨c, hcm, hcv⟩
  · rcases (foldl_max_facts lcol (item.1 + item.2.1)).2.2 with he | hm
    · exact ⟨item, List.mem_cons_self _ _, he.symm⟩
    · obtain ⟨c, hcm, hcv⟩ := List.mem_map.mp hm
      exact ⟨c, hcm, hcv⟩
  · rcases (foldl_min_facts lrow (item.2.1 - item.1)).2.2 with he | hm
    · exact ⟨item, List.mem_cons_self _ _, he.symm⟩
    · obtain ⟨c, hcm, hcv⟩ := List.mem_map.mp hm
      exact ⟨c, hcm, hcv⟩
  · rcases (foldl_max_facts lrow (item.2.1 - item.1)).2.2 with he | hm
    · exact ⟨item, List.mem_cons_self _ _, he.symm⟩
    · obtain ⟨c, hcm, hcv⟩ := List.mem_map.mp hm
      exact ⟨c, hcm, hcv⟩

/-- Witness for C7 at a concrete two-chunk input. -/
theorem C7_witness :
    ([((0 : Int), (0 : Int), "f0"), ((1 : Int), (2 : Int), "f1")] ≠
      ([] : List (Int × Int × String))) ∧
    (∃ mincol maxcol minrow maxrow ts,
      _convert_coords [((0 : Int), (0 : Int), "f0"), ((1 : Int), (2 : Int), "f1")] =
        some (mincol, maxcol, minrow, maxrow, ts) ∧
      ts = [((0 : Int), (0 : Int), "f0"), ((1 : Int), (2 : Int), "f1")].map (fun c =>
        ((project c.1 c.2.1).1, (project c.1 c.2.1).2, (c.1, c.2.1))) ∧
      (∀ c ∈ [((0 : Int), (0 : Int), "f0"), ((1 : Int), (2 : Int), "f1")],
        mincol ≤ (project c.1 c.2.1).1 ∧ (project c.1 c.2.1).1 ≤ maxcol ∧
        minrow ≤ (project c.1 c.2.1).2 ∧ (project c.1 c.2.1).2 ≤ maxrow) ∧
      (∃ c ∈ [((0 : Int), (0 : Int), "f0"), ((1 : Int), (2 : Int), "f1")],
        (project c.1 c.2.1).1 = mincol) ∧
      (∃ c ∈ [((0 : Int), (0 : Int), "f0"), ((1 : Int), (2 : Int), "f1")],
        (project c.1 c.2.1).1 = maxcol) ∧
      (∃ c ∈ [((0 : Int), (0 : Int), "f0"), ((1 : Int), (2 : Int), "f1")],
        (project c.1 c.2.1).2 = minrow) ∧
      (∃ c ∈ [((0 : Int), (0 : Int), "f0"), ((1 : Int), (2 : Int), "f1")],
        (project c.1 c.2.1).2 = maxrow)) :=
  ⟨by decide, C7_convert_coords_bounds
    [((0 : Int), (0 : Int), "f0"), ((1 : Int), (2 : Int), "f1")] (by decide)⟩

/-- Characterisation of the first-air-block loop: starting inside the
column (`0 ≤ y < 128`) with enough fuel, the loop returns the first
height at or above `y` whose block is air, or the ceiling 128 when
every height up to 127 is solid. -/
theorem spawnLoop_spec (blk : Int → Int → Int → Nat) (ix iz : Int) :
    ∀ (fuel : Nat) (y : Int), 0 ≤ y → y < 128 → (128 - y).toNat ≤ fuel →
      y ≤ spawnLoop blk ix iz fuel y ∧
      (∀ y', y ≤ y' → y' < spawnLoop blk ix iz fuel y → blk ix iz y' ≠ 0) ∧
      (spawnLoop blk ix iz fuel y = 128 ∨
        (spawnLoop blk ix iz fuel y < 128 ∧
         blk ix iz (spawnLoop blk ix iz fuel y) = 0)) := by
  intro fuel
  induction fuel with
  | zero => intro y h0 h1 h2; omega
  | succ f ih =>
    intro y h0 h1 h2
    by_cases hair : blk ix iz y = 0
    · rw [show spawnLoop blk ix iz (f + 1) y = y from by rw [spawnLoop]; simp [hair]]
      exact ⟨le_refl y,
        fun y0 hy1 hy2 => absurd (lt_of_le_of_lt hy1 hy2) (lt_irrefl y),
        Or.inr ⟨h1, hair⟩⟩
    · by_cases hceil : y + 1 = 128
      · rw [show spawnLoop blk ix iz (f + 1) y = 128 from by
          rw [spawnLoop]; simp [hair, hceil]]
        refine ⟨by omega, ?_, Or.inl rfl⟩
        intro y' hy1 hy2
        have hyy : y' = y := by omega
        rw [hyy]; exact hair
      · have hrec : spawnLoop blk ix iz (f + 1) y = spawnLoop blk ix iz f (y + 1) := by
          rw [spawnLoop]; simp [hair, hceil]
        obtain ⟨g1, g2, g3⟩ := ih (y + 1) (by omega) (by omega) (by omega)
        rw [hrec]
        refine ⟨by omega, ?_, g3⟩
        intro y' hy1 hy2
        by_cases hyy : y' = y
        · rw [hyy]; exact hair
        · exact g2 y' (by omega) hy2

/-- **C8.** Given spawn metadata with `0 ≤ spawnY < 128` and the
decoded 16×16×128 block column, `findTrueSpawn` emits exactly one POI
entry with `x = spawnX`, `z = spawnZ`, label `"Spawn"`, kind `spawn`,
whose `y` is the smallest height `y' ≥ spawnY` at which the block at
the chunk-local position is air (every height below it from `spawnY`
on is non-air, and it is air itself unless the ceiling was reached),
or 128 when every height from `spawnY` to 127 is non-air; its
`chunk` field is the chunk-local pair
`(spawnX mod 16, spawnZ mod 16)`, not the world chunk coordinates. -/
theorem C8_findTrueSpawn_correct (blk : Int → Int → Int → Nat)
    (spawnX spawnY spawnZ : Int) (h0 : 0 ≤ spawnY) (h1 : spawnY < 128) :
    (findTrueSpawn blk spawnX spawnY spawnZ).x = spawnX ∧
    (findTrueSpawn blk spawnX spawnY spawnZ).z = spawnZ ∧
    (findTrueSpawn blk spawnX spawnY spawnZ).msg = "Spawn" ∧
    (findTrueSpawn blk spawnX spawnY spawnZ).type = "spawn" ∧
    (findTrueSpawn blk spawnX spawnY spawnZ).chunk = (spawnX % 16, spawnZ % 16) ∧
    spawnY ≤ (findTrueSpawn blk spawnX spawnY spawnZ).y ∧
    (∀ y', spawnY ≤ y' → y' < (findTrueSpawn blk spawnX spawnY spawnZ).y →
      blk (spawnX % 16) (spawnZ % 16) y' ≠ 0) ∧
    ((findTrueSpawn blk spawnX spawnY spawnZ).y = 128 ∨
      ((findTrueSpawn blk spawnX spawnY spawnZ).y < 128 ∧
       blk (spawnX % 16) (spawnZ % 16)
         (findTrueSpawn blk spawnX spawnY spawnZ).y = 0)) := by
  have hx : spawnX - spawnX / 16 * 16 = spawnX % 16 := by omega
  have hz : spawnZ - spawnZ / 16 * 16 = spawnZ % 16 := by omega
  have hy : (findTrueSpawn blk spawnX spawnY spawnZ).y =
      spawnLoop blk (spawnX % 16) (spawnZ % 16) (128 - spawnY).toNat spawnY := by
    simp only [findTrueSpawn, hx, hz]
  obtain ⟨g1, g2, g3⟩ := spawnLoop_spec blk (spawnX % 16) (spawnZ % 16)
    (128 - spawnY).toNat spawnY h0 h1 (le_refl _)
  refine ⟨rfl, rfl, rfl, rfl, ?_, ?_, ?_, ?_⟩
  · simp only [findTrueSpawn, hx, hz]
  · rw [hy]; exact g1
  · rw [hy]; intro y' hy1 hy2; exact g2 y' hy1 hy2
  · rw [hy]; exact g3

/-- A sample block column: air (id 0) from height 10 upward, solid
below, at every local position. -/
def blkSample : Int → Int → Int → Nat := fun _ _ y => if 10 ≤ y then 0 else 1

/-- Witness for C8 at spawn metadata `(5, 3, 7)` over `blkSample`. -/
theorem C8_witness :
    ((0 : Int) ≤ 3) ∧ ((3 : Int) < 128) ∧
    ((findTrueSpawn blkSample 5 3 7).x = 5 ∧
     (findTrueSpawn blkSample 5 3 7).z = 7 ∧
     (findTrueSpawn blkSample 5 3 7).msg = "Spawn" ∧
     (findTrueSpawn blkSample 5 3 7).type = "spawn" ∧
     (findTrueSpawn blkSample 5 3 7).chunk = ((5 : Int) % 16, (7 : Int) % 16) ∧
     (3 : Int) ≤ (findTrueSpawn blkSample 5 3 7).y ∧
     (∀ y', (3 : Int) ≤ y' → y' < (findTrueSpawn blkSample 5 3 7).y →
       blkSample ((5 : Int) % 16) ((7 : Int) % 16) y' ≠ 0) ∧
     ((findTrueSpawn blkSample 5 3 7).y = 128 ∨
       ((findTrueSpawn blkSample 5 3 7).y < 128 ∧
        blkSample ((5 : Int) % 16) ((7 : Int) % 16)
          (findTrueSpawn blkSample 5 3 7).y = 0))) :=
  ⟨by decide, by decide,
   C8_findTrueSpawn_correct blkSample 5 3 7 (by decide) (by decide)⟩

/-! ### Component lemmas for the dispatcher -/

/-- Polling never changes the results dict. -/
theorem pollOnce_results (st : DState) : (pollOnce st).results = st.results := by
  rw [pollOnce]
  cases st.queue <;> rfl

/-- Polling never changes the rendered-chunk instrumentation. -/
theorem pollOnce_rendered (st : DState) : (pollOnce st).rendered = st.rendered := by
  rw [pollOnce]
  cases st.queue <;> rfl

/-- Polling pops at most one message from the front of the queue. -/
theorem pollOnce_queue (st : DState) :
    ∃ k, k ≤ 1 ∧ k ≤ st.queue.length ∧ (pollOnce st).queue = st.queue.drop k := by
  rw [pollOnce]
  cases h : st.queue with
  | nil => exact ⟨0, by omega, by simp, by simp [h]⟩
  | cons m rest => exact ⟨1, le_refl 1, by simp [h], by simp⟩

/-- The render-or-reuse step leaves the results dict unchanged. -/
theorem inlineRender_results (env : RenderEnv) (st : DState) (cXY : ChunkXY) :
    (inlineRender env st cXY).1.results = st.results := by
  rw [inlineRender]
  split <;> rfl

/-- The render-or-reuse step appends the emitted messages to the
queue (none on a hit). -/
theorem inlineRender_queue (env : RenderEnv) (st : DState) (cXY : ChunkXY) :
    (inlineRender env st cXY).1.queue = st.queue ++
      (if env.check_cache cXY (env.find_oldimage cXY) then []
       else env.render_msgs cXY) := by
  rw [inlineRender]
  split <;> simp

/-- The render-or-reuse step records exactly the cache misses. -/
theorem inlineRender_rendered (env : RenderEnv) (st : DState) (cXY : ChunkXY) :
    (inlineRender env st cXY).1.rendered = st.rendered ++
      (if env.check_cache cXY (env.find_oldimage cXY) then [] else [cXY]) := by
  rw [inlineRender]
  split <;> simp

/-- The render-or-reuse step's value is the common per-chunk result. -/
theorem inlineRender_snd (env : RenderEnv) (st : DState) (cXY : ChunkXY) :
    (inlineRender env st cXY).2 = chunkResult env cXY := by
  rw [inlineRender, chunkResult]
  split <;> rfl

/-- Storing affects only the results dict. -/
theorem inlineStore_results (st : DState) (key : Int × Int) (result : Option String) :
    (inlineStore st key result).results =
      st.results ++ (if truthy result then [(key, result)] else []) := by
  rw [inlineStore]
  split <;> simp

/-- Storing leaves the queue unchanged. -/
theorem inlineStore_queue (st : DState) (key : Int × Int) (result : Option String) :
    (inlineStore st key result).queue = st.queue := by
  rw [inlineStore]
  split <;> rfl

/-- Storing leaves the rendered-chunk instrumentation unchanged. -/
theorem inlineStore_rendered (st : DState) (key : Int × Int) (result : Option String) :
    (inlineStore st key result).rendered = st.rendered := by
  rw [inlineStore]
  split <;> rfl

/-- One inline iteration appends exactly the chunk's dict entry (if
any) to the results. -/
theorem inlineStep_results (env : RenderEnv) (st : DState)
    (ic : Nat × Int × Int × ChunkXY) :
    (inlineStep env st ic).results =
      st.results ++ (inlineEntry env ic.2).toList := by
  have h2 : (inlineStore (inlineRender env st ic.2.2.2).1 (ic.2.1, ic.2.2.1)
      (inlineRender env st ic.2.2.2).2).results =
      st.results ++ (inlineEntry env ic.2).toList := by
    rw [inlineStore_results, inlineRender_results, inlineRender_snd, inlineEntry]
    split <;> simp
  rw [inlineStep]
  split
  · rw [pollOnce_results]
    exact h2
  · exact h2

/-- One inline iteration appends exactly the cache misses to the
rendered-chunk instrumentation. -/
theorem inlineStep_rendered (env : RenderEnv) (st : DState)
    (ic : Nat × Int × Int × ChunkXY) :
    (inlineStep env st ic).rendered = st.rendered ++
      (if env.check_cache ic.2.2.2 (env.find_oldimage ic.2.2.2) then []
       else [ic.2.2.2]) := by
  have h2 : (inlineStore (inlineRender env st ic.2.2.2).1 (ic.2.1, ic.2.2.1)
      (inlineRender env st ic.2.2.2).2).rendered = st.rendered ++
      (if env.check_cache ic.2.2.2 (env.find_oldimage ic.2.2.2) then []
       else [ic.2.2.2]) := by
    rw [inlineStore_rendered, inlineRender_rendered]
  rw [inlineStep]
  split
  · rw [pollOnce_rendered]
    exact h2
  · exact h2

/-- The enumeration start index never affects the results dict
(polling does not touch it): the fold appends one optional entry per
chunk, in order. -/
theorem renderInline_results_aux (env : RenderEnv) :
    ∀ (cs : List (Int × Int × ChunkXY)) (n : Nat) (st : DState),
      ((List.enumFrom n cs).foldl (inlineStep env) st).results =
        st.results ++ cs.filterMap (inlineEntry env) := by
  intro cs
  induction cs with
  | nil => intro n st; simp
  | cons c rest ih =>
    intro n st
    rw [List.enumFrom_cons, List.foldl_cons, ih, inlineStep_results,
      List.filterMap_cons]
    cases he : inlineEntry env c <;> simp [he]

/-- The inline loop invokes `render_and_save` exactly on the cache
misses, in order — the same set the pooled branch sends to the pool. -/
theorem renderInline_rendered_aux (env : RenderEnv) :
    ∀ (cs : List (Int × Int × ChunkXY)) (n : Nat) (st : DState),
      ((List.enumFrom n cs).foldl (inlineStep env) st).rendered =
        st.rendered ++ pooledRendered env cs := by
  intro cs
  induction cs with
  | nil => intro n st; simp [pooledRendered]
  | cons c rest ih =>
    intro n st
    rw [List.enumFrom_cons, List.foldl_cons, ih, inlineStep_rendered]
    simp only [pooledRendered, List.filterMap_cons]
    by_cases h : env.check_cache c.2.2 (env.find_oldimage c.2.2) <;> simp [h]

/-- Queue conservation for the inline loop once polling is active
(enumeration index ≥ 1): the final queue is the FIFO arrival sequence
with the first `k` messages removed, one per successful poll, with at
most one poll per chunk. -/
theorem renderInline_queue_aux (env : RenderEnv) :
    ∀ (cs : List (Int × Int × ChunkXY)) (n : Nat) (st : DState), 1 ≤ n →
      ∃ k, k ≤ cs.length ∧ k ≤ (st.queue ++ inlineEmitted env cs).length ∧
        ((List.enumFrom n cs).foldl (inlineStep env) st).queue =
          (st.queue ++ inlineEmitted env cs).drop k := by
  intro cs
  induction cs with
  | nil =>
    intro n st hn
    exact ⟨0, by simp, by simp, by simp [inlineEmitted]⟩
  | cons c rest ih =>
    intro n st hn
    rw [List.enumFrom_cons, List.foldl_cons]
    have hstep : inlineStep env st (n, c) =
        pollOnce (inlineStore (inlineRender env st c.2.2).1 (c.1, c.2.1)
          (inlineRender env st c.2.2).2) := by
      rw [inlineStep]
      split
      · rfl
      · exact absurd hn (by assumption)
    have hq2 : (inlineStore (inlineRender env st c.2.2).1 (c.1, c.2.1)
        (inlineRender env st c.2.2).2).queue = st.queue ++ emOf env c := by
      rw [inlineStore_queue, inlineRender_queue, emOf]
    obtain ⟨k0, hk01, hk0len, hk0q⟩ :=
      pollOnce_queue (inlineStore (inlineRender env st c.2.2).1 (c.1, c.2.1)
        (inlineRender env st c.2.2).2)
    rw [hq2] at hk0len hk0q
    obtain ⟨k1, hk11, hk1len, hk1q⟩ :=
      ih (n + 1) (pollOnce (inlineStore (inlineRender env st c.2.2).1 (c.1, c.2.1)
        (inlineRender env st c.2.2).2)) (by omega)
    rw [hk0q] at hk1len hk1q
    have hsplit : (st.queue ++ emOf env c).drop k0 ++ inlineEmitted env rest =
        (st.queue ++ inlineEmitted env (c :: rest)).drop k0 := by
      simp only [inlineEmitted, List.flatMap_cons]
      rw [← List.append_assoc, List.drop_append_of_le_length hk0len]
    rw [hsplit] at hk1len hk1q
    have htot : (st.queue ++ emOf env c).length ≤
        (st.queue ++ inlineEmitted env (c :: rest)).length := by
      simp only [inlineEmitted, List.flatMap_cons, List.length_append]
      omega
    refine ⟨k0 + k1, ?_, ?_, ?_⟩
    · simp only [List.length_cons]
      omega
    · have hlen : ((st.queue ++ inlineEmitted env (c :: rest)).drop k0).length =
          (st.queue ++ inlineEmitted env (c :: rest)).length - k0 := by
        rw [List.length_drop]
      omega
    · rw [hstep, hk1q, List.drop_drop]

/-- The inline branch's final results dict, from the empty starting
state: one entry per chunk whose per-chunk result is truthy, in list
order. -/
theorem renderInline_results (env : RenderEnv)
    (chunks : List (Int × Int × ChunkXY)) (pd0 : List POIEntry) :
    (renderInline env chunks (initState pd0)).results =
      chunks.filterMap (inlineEntry env) := by
  rw [renderInline]
  exact renderInline_results_aux env chunks 0 (initState pd0)

/-- The inline branch invokes `render_and_save` exactly on the cache
misses, the same chunks the pooled branch dispatches to the pool. -/
theorem renderInline_rendered (env : RenderEnv)
    (chunks : List (Int × Int × ChunkXY)) (pd0 : List POIEntry) :
    (renderInline env chunks (initState pd0)).rendered =
      pooledRendered env chunks := by
  rw [renderInline]
  exact renderInline_rendered_aux env chunks 0 (initState pd0)

/-- Dict lookup in an association list built by a key-preserving entry
function: under pairwise-distinct keys, the lookup of an element's key
finds that element's entry. -/
theorem find?_filterMap_key {α : Type} (key : α → Int × Int)
    (f : α → Option ((Int × Int) × Option String))
    (hf : ∀ a e, f a = some e → e.1 = key a) :
    ∀ (cs : List α) (a : α) (v : Option String), a ∈ cs →
      (cs.map key).Nodup → f a = some (key a, v) →
      (cs.filterMap f).find? (fun e => decide (e.1 = key a)) =
        some (key a, v) := by
  intro cs
  induction cs with
  | nil => intro a v ha; cases ha
  | cons x rest ih =>
    intro a v ha hnd hfa
    rw [List.map_cons, List.nodup_cons] at hnd
    rw [List.filterMap_cons]
    rcases List.mem_cons.mp ha with rfl | hmem
    · rw [hfa]
      exact List.find?_cons_of_pos _ (by simp)
    · have hkey : key x ≠ key a := by
        intro h
        exact hnd.1 (h ▸ List.mem_map_of_mem key hmem)
      cases hfx : f x with
      | none => exact ih a v hmem hnd.2 hfa
      | some e =>
        rw [List.find?_cons_of_neg]
        · exact ih a v hmem hnd.2 hfa
        · have he := hf x e hfx
          simp [he, hkey]

/-- `lookupPos` version of the previous lemma. -/
theorem lookupPos_filterMap_key {α : Type} (key : α → Int × Int)
    (f : α → Option ((Int × Int) × Option String))
    (hf : ∀ a e, f a = some e → e.1 = key a)
    (cs : List α) (a : α) (v : Option String) (ha : a ∈ cs)
    (hnd : (cs.map key).Nodup) (hfa : f a = some (key a, v)) :
    lookupPos (cs.filterMap f) (key a) = some v := by
  rw [lookupPos, find?_filterMap_key key f hf cs a v ha hnd hfa]
  rfl

/-- **C1.** For every chunk whose cache check succeeds against its
existing prior image (`check_cache` true on `find_oldimage`'s path),
the dispatcher never invokes `render_and_save` for that chunk — in the
inline branch and in the pooled branch alike — and, provided chunk
positions are pairwise distinct, the chunk's entry in the result dict
of either mode is exactly the cached image path. -/
theorem C1_cache_hit_no_render (env : RenderEnv)
    (chunks : List (Int × Int × ChunkXY)) (pd0 : List POIEntry)
    (col row : Int) (cXY : ChunkXY) (p : String)
    (hmem : (col, row, cXY) ∈ chunks)
    (hkeys : (chunks.map (fun c => (c.1, c.2.1))).Nodup)
    (hfind : env.find_oldimage cXY = some p)
    (hcache : env.check_cache cXY (some p) = true)
    (hp : p ≠ "") :
    cXY ∉ (renderInline env chunks (initState pd0)).rendered ∧
    cXY ∉ pooledRendered env chunks ∧
    lookupPos (renderInline env chunks (initState pd0)).results (col, row) =
      some (some p) ∧
    lookupPos (pooledResults env chunks) (col, row) = some (some p) := by
  have hhit : env.check_cache cXY (env.find_oldimage cXY) = true := by
    rw [hfind]; exact hcache
  have hres : chunkResult env cXY = some p := by
    rw [chunkResult, if_pos hhit, hfind]
  have htr : truthy (some p) = true := by
    simp [truthy, hp]
  have hnotr : cXY ∉ pooledRendered env chunks := by
    intro hmem2
    rw [pooledRendered] at hmem2
    rw [List.mem_filterMap] at hmem2
    obtain ⟨c, hc, hval⟩ := hmem2
    by_cases h : env.check_cache c.2.2 (env.find_oldimage c.2.2)
    · rw [if_pos h] at hval
      cases hval
    · rw [if_neg h] at hval
      have hcc : c.2.2 = cXY := Option.some.inj hval
      rw [hcc] at h
      exact h hhit
  refine ⟨?_, hnotr, ?_, ?_⟩
  · rw [renderInline_rendered]
    exact hnotr
  · rw [renderInline_results]
    exact lookupPos_filterMap_key (fun c => (c.1, c.2.1)) (inlineEntry env)
      (by
        intro a e hae
        rw [inlineEntry] at hae
        split at hae
        · rw [← Option.some.inj hae]
        · cases hae)
      chunks (col, row, cXY) (some p) hmem hkeys
      (by rw [inlineEntry, hres, if_pos htr])
  · have hpool : pooledResults env chunks =
        chunks.filterMap (some ∘ fun c => ((c.1, c.2.1), chunkResult env c.2.2)) := by
      rw [pooledResults, List.filterMap_eq_map]
    rw [hpool]
    exact lookupPos_filterMap_key (fun c => (c.1, c.2.1))
      (some ∘ fun c => ((c.1, c.2.1), chunkResult env c.2.2))
      (by
        intro a e hae
        rw [← Option.some.inj hae])
      chunks (col, row, cXY) (some p) hmem hkeys
      (by simp [Function.comp, hres])

/-- An environment in which every chunk is a valid cache hit. -/
def envHit : RenderEnv :=
  { find_oldimage := fun _ => some "cache/0/1/img.2.3.nocave.png",
    check_cache := fun _ _ => true,
    render_and_save := fun _ => some "fresh.png",
    render_msgs := fun _ => [] }

/-- Witness for C1: chunk (2, 3) (projected position (5, 1)) with a
valid cached image is never rendered and keeps its cached path in
both modes. -/
theorem C1_witness :
    ((2 : Int), (3 : Int)) ∉
      (renderInline envHit [(5, 1, (2, 3))] (initState [])).rendered ∧
    ((2 : Int), (3 : Int)) ∉ pooledRendered envHit [(5, 1, (2, 3))] ∧
    lookupPos (renderInline envHit [(5, 1, (2, 3))] (initState [])).results
      (5, 1) = some (some "cache/0/1/img.2.3.nocave.png") ∧
    lookupPos (pooledResults envHit [(5, 1, (2, 3))]) (5, 1) =
      some (some "cache/0/1/img.2.3.nocave.png") :=
  C1_cache_hit_no_render envHit [(5, 1, (2, 3))] [] 5 1 (2, 3)
    "cache/0/1/img.2.3.nocave.png" (by decide) (by decide) rfl rfl (by decide)

/-- An environment in which every chunk is a ghost: no cached image,
cache check fails, and the render job returns `None`. -/
def envGhost : RenderEnv :=
  { find_oldimage := fun _ => none,
    check_cache := fun _ _ => false,
    render_and_save := fun _ => none,
    render_msgs := fun _ => [] }

/-- **C2 counterexample.** A single ghost chunk (render job returns
`None`): the inline branch's `if result:` guard leaves the dict empty,
but the pooled branch stores `result.get()` unconditionally (world.py
line 387), so its dict maps the position to `None` — the two modes do
not produce identical result maps. -/
theorem C2_counterexample :
    (renderInline envGhost [(0, 0, (0, 0))] (initState [])).results ≠
      pooledResults envGhost [(0, 0, (0, 0))] ∧
    (renderInline envGhost [(0, 0, (0, 0))] (initState [])).results = [] ∧
    pooledResults envGhost [(0, 0, (0, 0))] = [((0, 0), none)] := by
  decide

/-- Under an all-truthy-results hypothesis, the inline dict entries
coincide with the pooled per-chunk entries. -/
theorem filterMap_inlineEntry_eq_map (env : RenderEnv) :
    ∀ (cs : List (Int × Int × ChunkXY)),
      (∀ c ∈ cs, truthy (chunkResult env c.2.2) = true) →
      cs.filterMap (inlineEntry env) =
        cs.map (fun c => ((c.1, c.2.1), chunkResult env c.2.2)) := by
  intro cs
  induction cs with
  | nil => intro h; rfl
  | cons c rest ih =>
    intro h
    rw [List.filterMap_cons, List.map_cons]
    have hc := h c (List.mem_cons_self c rest)
    rw [inlineEntry, if_pos hc]
    simp [ih (fun c2 hc2 => h c2 (List.mem_cons_of_mem c hc2))]

/-- **C2 amended.** The inline and pooled dispatcher modes produce the
same result map whenever every chunk's per-chunk result is truthy
(non-`None`, non-empty path).  They differ exactly on falsy results:
the inline branch omits such chunks (`if result:`) while the pooled
branch stores the falsy value under the chunk's key.  The map is
independent of job completion order in both modes (the pooled dict is
collected by position-indexed handles in submission order). -/
theorem C2_amended_modes_agree (env : RenderEnv)
    (chunks : List (Int × Int × ChunkXY)) (pd0 : List POIEntry)
    (h : ∀ c ∈ chunks, truthy (chunkResult env c.2.2) = true) :
    (renderInline env chunks (initState pd0)).results =
      pooledResults env chunks := by
  rw [renderInline_results, pooledResults]
  exact filterMap_inlineEntry_eq_map env chunks h

/-- Witness for the amended C2 on a concrete two-chunk all-hit run. -/
theorem C2_witness :
    (∀ c ∈ [((5 : Int), (1 : Int), ((2 : Int), (3 : Int))),
            ((0 : Int), (2 : Int), ((-1 : Int), (1 : Int)))],
      truthy (chunkResult envHit c.2.2) = true) ∧
    (renderInline envHit
        [((5 : Int), (1 : Int), ((2 : Int), (3 : Int))),
         ((0 : Int), (2 : Int), ((-1 : Int), (1 : Int)))]
        (initState [])).results =
      pooledResults envHit
        [((5 : Int), (1 : Int), ((2 : Int), (3 : Int))),
         ((0 : Int), (2 : Int), ((-1 : Int), (1 : Int)))] :=
  ⟨by decide,
   C2_amended_modes_agree envHit
     [((5 : Int), (1 : Int), ((2 : Int), (3 : Int))),
      ((0 : Int), (2 : Int), ((-1 : Int), (1 : Int)))] [] (by decide)⟩

/-- A sample POI entry, as a render job would report for a sign in
world chunk (1, 2). -/
def poiSample : POIEntry :=
  { x := 10, y := 64, z := 20, msg := "a sign", type := "sign", chunk := (1, 2) }

/-- A second sample POI entry, originating from world chunk (7, 8). -/
def poiSample2 : POIEntry :=
  { x := 1, y := 2, z := 3, msg := "Spawn", type := "spawn", chunk := (7, 8) }

/-- **C4 counterexample.** `NewPOI` appends to the live POI sequence
(`self.POI`, world.py line 356) but `RemovePOI` filters the
*persistent* sequence (`self.persistentData['POI']`, line 358), so
`NewPOI(e)` followed by `RemovePOI(e.originatingChunk)` does not
restore the state: from (live `[]`, persistent `[poiSample]`), the
live sequence keeps `e` and the persistent sequence loses its
matching entry. -/
theorem C4_counterexample :
    applyMsg (applyMsg ([], [poiSample]) (QMsg.newpoi poiSample))
        (QMsg.removePOI poiSample.chunk) ≠ ([], [poiSample]) ∧
    applyMsg (applyMsg ([], [poiSample]) (QMsg.newpoi poiSample))
        (QMsg.removePOI poiSample.chunk) = ([poiSample], []) := by
  decide

/-- **C4 amended.** `NewPOI(e)` appends `e` to the live POI sequence;
`RemovePOI(k)` filters only the persistent POI sequence, leaving the
live one untouched — so `NewPOI(e)` then `RemovePOI(e.originatingChunk)`
leaves the live sequence with `e` appended and the persistent sequence
filtered by the key.  `RemovePOI(k)` is idempotent, and it is a
no-op when no persistent entry's originating chunk equals `k`. -/
theorem C4_amended_applyMsg_semantics (st : List POIEntry × List POIEntry)
    (e : POIEntry) (k : Int × Int) :
    applyMsg (applyMsg st (QMsg.newpoi e)) (QMsg.removePOI k) =
      (st.1 ++ [e], st.2.filter (fun x => x.chunk ≠ k)) ∧
    applyMsg (applyMsg st (QMsg.removePOI k)) (QMsg.removePOI k) =
      applyMsg st (QMsg.removePOI k) ∧
    ((∀ x ∈ st.2, x.chunk ≠ k) → applyMsg st (QMsg.removePOI k) = st) := by
  refine ⟨rfl, ?_, ?_⟩
  · simp [applyMsg, List.filter_filter]
  · intro h
    have hkeep : st.2.filter (fun x => decide (x.chunk ≠ k)) = st.2 :=
      List.filter_eq_self.mpr (fun a ha => decide_eq_true (h a ha))
    simp only [applyMsg]
    rw [hkeep]

/-- Witness for the amended C4: a non-matching `RemovePOI` key leaves
the whole state unchanged. -/
theorem C4_witness :
    (∀ x ∈ [poiSample], x.chunk ≠ ((9 : Int), (9 : Int))) ∧
    applyMsg ([poiSample2], [poiSample]) (QMsg.removePOI (9, 9)) =
      ([poiSample2], [poiSample]) :=
  ⟨by decide,
   (C4_amended_applyMsg_semantics ([poiSample2], [poiSample]) poiSample2
     (9, 9)).2.2 (by decide)⟩

/-- An environment in which every chunk misses the cache and its
render job reports one new POI message. -/
def envMsg : RenderEnv :=
  { find_oldimage := fun _ => none,
    check_cache := fun _ _ => false,
    render_and_save := fun _ => some "img.png",
    render_msgs := fun _ => [QMsg.newpoi poiSample] }

/-- **C5 counterexample.** In a single-chunk inline run the loop never
polls the channel (polling happens only from the second chunk onward,
`if i > 0`), so the one message the render job wrote is still sitting
in the channel at termination — unobserved and unapplied. -/
theorem C5_counterexample :
    (renderInline envMsg [(0, 0, (0, 0))] (initState [])).queue =
      [QMsg.newpoi poiSample] ∧
    (renderInline envMsg [(0, 0, (0, 0))] (initState [])).poi = [] := by
  decide

/-- Queue conservation for the pooled collection loop: whatever the
message arrival schedule, each of its iterations drains at most one
message from the front of the FIFO queue, so the final queue is the
arrival sequence with the first `k` messages removed, `k` at most the
number of collected results. -/
theorem pooledDrain_queue (arrivals : List (List QMsg)) :
    ∀ st : DState,
      ∃ k, k ≤ arrivals.length ∧ k ≤ (st.queue ++ arrivals.flatten).length ∧
        (pooledDrain st arrivals).queue =
          (st.queue ++ arrivals.flatten).drop k := by
  induction arrivals with
  | nil => intro st; exact ⟨0, by simp, by simp, by simp [pooledDrain]⟩
  | cons ms rest ih =>
    intro st
    rw [pooledDrain, List.foldl_cons]
    set st1 := pollOnce { st with queue := st.queue ++ ms } with hst1
    obtain ⟨k0, hk01, hk0len0, hk0q0⟩ :=
      pollOnce_queue { st with queue := st.queue ++ ms }
    have hk0len : k0 ≤ (st.queue ++ ms).length := hk0len0
    have hk0q : st1.queue = (st.queue ++ ms).drop k0 := hk0q0
    obtain ⟨k1, hk11, hk1len, hk1q⟩ := ih st1
    rw [hk0q] at hk1len hk1q
    have hsplit : (st.queue ++ ms).drop k0 ++ rest.flatten =
        (st.queue ++ (ms :: rest).flatten).drop k0 := by
      rw [List.flatten_cons, ← List.append_assoc,
        List.drop_append_of_le_length hk0len]
    rw [hsplit] at hk1len hk1q
    have htot : (st.queue ++ ms).length ≤
        (st.queue ++ (ms :: rest).flatten).length := by
      simp only [List.flatten_cons, List.length_append]
      omega
    refine ⟨k0 + k1, ?_, ?_, ?_⟩
    · simp only [List.length_cons]
      omega
    · have hlen : ((st.queue ++ (ms :: rest).flatten).drop k0).length =
          (st.queue ++ (ms :: rest).flatten).length - k0 := by
        rw [List.length_drop]
      omega
    · rw [show rest.foldl (fun s ms2 => pollOnce { s with queue := s.queue ++ ms2 })
        st1 = pooledDrain st1 rest from rfl]
      rw [hk1q, List.drop_drop]

/-- **C5 amended.** The orchestrator polls the channel non-blockingly
at most once per chunk: the inline loop only from the second chunk
onward (at most `n − 1` observations over `n` chunks), the pooled
collection loop once per collected result (at most `n` observations,
whatever the worker message arrival schedule).  The channel conserves
the rest: at termination the queue is exactly the FIFO arrival
sequence with the first `k` observed messages removed, `k` within the
poll budget, so messages beyond that budget — including any message
of a single-chunk inline run — remain undrained. -/
theorem C5_amended_queue_conservation (env : RenderEnv)
    (chunks : List (Int × Int × ChunkXY)) (pd0 : List POIEntry) :
    (∃ k, k ≤ chunks.length - 1 ∧ k ≤ (inlineEmitted env chunks).length ∧
      (renderInline env chunks (initState pd0)).queue =
        (inlineEmitted env chunks).drop k) ∧
    (∀ arrivals : List (List QMsg), arrivals.length = chunks.length →
      ∃ k, k ≤ chunks.length ∧ k ≤ arrivals.flatten.length ∧
        (pooledDrain (initState pd0) arrivals).queue =
          arrivals.flatten.drop k) := by
  constructor
  case right =>
    intro arrivals hlen
    obtain ⟨k, hk1, hk2, hkq⟩ := pooledDrain_queue arrivals (initState pd0)
    rw [show (initState pd0).queue ++ arrivals.flatten = arrivals.flatten
      from rfl] at hk2 hkq
    exact ⟨k, hlen ▸ hk1, hk2, hkq⟩
  case left => ?_
  cases chunks with
  | nil => exact ⟨0, by simp, by simp, rfl⟩
  | cons c rest =>
    rw [renderInline]
    rw [show (c :: rest).enum = (0, c) :: List.enumFrom 1 rest from rfl]
    rw [List.foldl_cons]
    have hstep0 : inlineStep env (initState pd0) (0, c) =
        inlineStore (inlineRender env (initState pd0) c.2.2).1 (c.1, c.2.1)
          (inlineRender env (initState pd0) c.2.2).2 := by
      rw [inlineStep]
      split
      · exact absurd (by assumption) (by simp)
      · rfl
    have hq0 : (inlineStep env (initState pd0) (0, c)).queue = emOf env c := by
      rw [hstep0, inlineStore_queue, inlineRender_queue]
      simp [initState, emOf]
    obtain ⟨k, hk1, hklen, hkq⟩ := renderInline_queue_aux env rest 1
      (inlineStep env (initState pd0) (0, c)) (le_refl 1)
    rw [hq0] at hklen hkq
    have hemit : emOf env c ++ inlineEmitted env rest =
        inlineEmitted env (c :: rest) := by
      rw [inlineEmitted, inlineEmitted, List.flatMap_cons]
    rw [hemit] at hklen hkq
    refine ⟨k, ?_, hklen, hkq⟩
    simp only [List.length_cons]
    omega

/-- Witness for the amended C5: a two-result pooled collection with one
message arriving before the first poll and none before the second. -/
theorem C5_witness :
    (([[QMsg.newpoi poiSample], []] : List (List QMsg)).length =
      [((0 : Int), (0 : Int), ((0 : Int), (0 : Int))),
       ((1 : Int), (1 : Int), ((1 : Int), (0 : Int)))].length) ∧
    (∃ k, k ≤ [((0 : Int), (0 : Int), ((0 : Int), (0 : Int))),
               ((1 : Int), (1 : Int), ((1 : Int), (0 : Int)))].length ∧
      k ≤ ([[QMsg.newpoi poiSample], []] : List (List QMsg)).flatten.length ∧
      (pooledDrain (initState []) [[QMsg.newpoi poiSample], []]).queue =
        ([[QMsg.newpoi poiSample], []] : List (List QMsg)).flatten.drop k) :=
  ⟨by decide,
   (C5_amended_queue_conservation envMsg
     [((0 : Int), (0 : Int), ((0 : Int), (0 : Int))),
      ((1 : Int), (1 : Int), ((1 : Int), (0 : Int)))] []).2
     [[QMsg.newpoi poiSample], []] (by decide)⟩

end Overviewer
